import Mathlib

/-!
Verification of the koala-dns core against its specification.

The development shallowly embeds the three components the spec covers:
the bounds-checked wire-buffer cursor (`src/buf.rs`), the TTL answer
cache (`src/cache/mod.rs`), and the per-request state machine
(`src/request/tcp.rs`).  Machine integers are modelled as `Nat` with
explicit `% 2^w` where the source truncates; `SteadyTime::now()` is
modelled as an explicit `now : Nat` parameter threaded through the
operations that read the clock; Rust's `HashMap` is modelled as an
association list.
-/

namespace KoalaDns

/-! ## WireBuffer (src/buf.rs)

The traits `DirectAccessBuf`, `BufRead`, `BufWrite` operate on a byte
sequence plus cursor, accessed through `pos()/set_pos()/len()/buf()`.
We embed that abstract state as a structure.  Bytes are `Nat`s that the
source's `u8` type keeps below 256; writes truncate with explicit
`% 256` exactly where the source casts with `as u8`. -/

structure WireBuf where
  buf : List Nat
  pos : Nat
deriving DecidableEq

/-- `DirectAccessBuf::len` -/
def WireBuf.len (b : WireBuf) : Nat := b.buf.length

/-- `DirectAccessBuf::seek`: `if pos > self.len() { return false; } self.set_pos(pos); true`. -/
def WireBuf.seek (b : WireBuf) (p : Nat) : WireBuf × Bool :=
  if p > b.len then (b, false)
  else ({ b with pos := p }, true)

/-- `DirectAccessBuf::advance(count) = seek(pos() + count)`. -/
def WireBuf.advance (b : WireBuf) (count : Nat) : WireBuf × Bool :=
  b.seek (b.pos + count)

/-- `DirectAccessBuf::reset`: calls `seek(0)` discarding the result. -/
def WireBuf.reset (b : WireBuf) : WireBuf :=
  (b.seek 0).1

/-- `BufRead::peek_u8`: byte at the cursor, without consuming. -/
def WireBuf.peekU8 (b : WireBuf) : Option Nat :=
  if b.pos ≥ b.len then none
  else some (b.buf.getD b.pos 0)

/-- `BufRead::next_u8`: peek then `advance(1)`. -/
def WireBuf.nextU8 (b : WireBuf) : WireBuf × Option Nat :=
  match b.peekU8 with
  | some byte => ((b.advance 1).1, some byte)
  | none => (b, none)

/-- `BufRead::next_bytes(bytes)`: loops `bytes` times calling `next_u8`,
breaking at the first `None`. -/
def WireBuf.nextBytes (b : WireBuf) (bytes : Nat) : WireBuf × List Nat :=
  match bytes with
  | 0 => (b, [])
  | n + 1 =>
    match b.nextU8 with
    | (b1, some x) =>
      let r := b1.nextBytes n
      (r.1, x :: r.2)
    | (b1, none) => (b1, [])

/-- `BufRead::next_u16`: guard `pos + 1 >= len`; on success the value is
`((byte1 as u16) << 8) | byte2`, which for `u8` bytes equals
`byte1 * 256 + byte2`; cursor advances by 2. -/
def WireBuf.nextU16 (b : WireBuf) : WireBuf × Option Nat :=
  if b.pos + 1 ≥ b.len then (b, none)
  else
    let byte1 := b.buf.getD b.pos 0
    let byte2 := b.buf.getD (b.pos + 1) 0
    ((b.advance 2).1, some (byte1 * 256 + byte2))

/-- `BufRead::next_u32`: guard `pos + 3 >= len`; on success the value is the
big-endian combination of four bytes; cursor advances by 4. -/
def WireBuf.nextU32 (b : WireBuf) : WireBuf × Option Nat :=
  if b.pos + 3 ≥ b.len then (b, none)
  else
    let v := b.buf.getD b.pos 0 * 16777216 +
             b.buf.getD (b.pos + 1) 0 * 65536 +
             b.buf.getD (b.pos + 2) 0 * 256 +
             b.buf.getD (b.pos + 3) 0
    ((b.advance 4).1, some v)

/-- `BufWrite::write_u8`: guard `pos >= len`; writes one byte (`% 256`
models the `u8` parameter type) and advances by 1. -/
def WireBuf.writeU8 (b : WireBuf) (byte : Nat) : WireBuf × Bool :=
  if b.pos ≥ b.len then (b, false)
  else
    let b1 : WireBuf := { b with buf := b.buf.set b.pos (byte % 256) }
    ((b1.advance 1).1, true)

/-- `BufWrite::write_u16`: guard `pos + 1 >= len`; writes
`(bytes >> 8) as u8` then `bytes as u8` and advances by 2. -/
def WireBuf.writeU16 (b : WireBuf) (bytes : Nat) : WireBuf × Bool :=
  if b.pos + 1 ≥ b.len then (b, false)
  else
    let p := b.pos
    let buf1 := (b.buf.set p (bytes / 256 % 256)).set (p + 1) (bytes % 256)
    let b1 : WireBuf := { b with buf := buf1 }
    ((b1.advance 2).1, true)

/-- `BufWrite::write_u32`: guard `pos + 3 >= len`; writes the four
big-endian bytes `(bytes >> 24) as u8`, …, `bytes as u8` and advances by 4. -/
def WireBuf.writeU32 (b : WireBuf) (bytes : Nat) : WireBuf × Bool :=
  if b.pos + 3 ≥ b.len then (b, false)
  else
    let p := b.pos
    let buf1 := (((b.buf.set p (bytes / 16777216 % 256)).set
                   (p + 1) (bytes / 65536 % 256)).set
                   (p + 2) (bytes / 256 % 256)).set
                   (p + 3) (bytes % 256)
    let b1 : WireBuf := { b with buf := buf1 }
    ((b1.advance 4).1, true)

/-- The body of `BufWrite::write_bytes`' loop: `for byte in bytes { self.write_u8(*byte); }`.
The source discards each `write_u8` result; the returned `Bool` here is the
conjunction of those per-byte results, recorded so that the claim that they
never fail can be stated. -/
def writeBytesLoop : WireBuf → List Nat → WireBuf × Bool
  | b, [] => (b, true)
  | b, x :: xs =>
    let p := b.writeU8 x
    let q := writeBytesLoop p.1 xs
    (q.1, p.2 && q.2)

/-- Specification-side view of the effect of `writeBytesLoop` on the byte
sequence: successive in-place updates starting at position `p` (each byte
truncated as by `u8`). -/
def setMany (l : List Nat) (p : Nat) : List Nat → List Nat
  | [] => l
  | x :: xs => setMany (l.set p (x % 256)) (p + 1) xs

/-- `BufWrite::write_bytes`: guard `pos + bytes.len() > len`, then the
per-byte loop. -/
def WireBuf.writeBytes (b : WireBuf) (bytes : List Nat) : WireBuf × Bool :=
  if b.pos + bytes.length > b.len then (b, false)
  else ((writeBytesLoop b bytes).1, true)

/-! ## AnswerCache (src/cache/mod.rs)

`SteadyTime` is modelled as `Nat` (a monotonic clock in seconds);
every operation that calls `SteadyTime::now()` takes the current time
as an explicit `now` parameter.  The `HashMap<CacheKey, CacheEntry>` is
modelled as an association list, the `Vec<CacheExpiry>` as a list. -/

structure CacheKey where
  qname : String
  qtype : Nat
  qclass : Nat
deriving DecidableEq

/-- `DnsAnswer` (declared in `dns::message`, outside src; the spec's
`AnswerRecord { name, atype, aclass, ttl, rdata }`). -/
structure DnsAnswer where
  name : String
  atype : Nat
  aclass : Nat
  ttl : Nat
  rdata : List Nat
deriving DecidableEq

structure CacheEntry where
  key : CacheKey
  answers : List DnsAnswer
  ttl : Nat
  expiry : Nat
deriving DecidableEq

/-- `CacheEntry::new`: `expiry = SteadyTime::now() + Duration::seconds(ttl)`,
with the clock passed explicitly. -/
def CacheEntry.new (key : CacheKey) (answers : List DnsAnswer) (ttl : Nat)
    (now : Nat) : CacheEntry :=
  { key := key, answers := answers, ttl := ttl, expiry := now + ttl }

structure CacheExpiry where
  key : CacheKey
  expiry : Nat
deriving DecidableEq

structure Cache where
  map : List (CacheKey × CacheEntry)
  keys : List CacheExpiry
deriving DecidableEq

/-- `Cache::default()`. -/
def Cache.empty : Cache := { map := [], keys := [] }

/-- `HashMap::get`. -/
def mapGet (m : List (CacheKey × CacheEntry)) (k : CacheKey) : Option CacheEntry :=
  (m.find? (fun p => decide (p.1 = k))).map (fun p => p.2)

/-- `HashMap::remove`. -/
def mapRemove (m : List (CacheKey × CacheEntry)) (k : CacheKey) :
    List (CacheKey × CacheEntry) :=
  m.filter (fun p => decide (p.1 ≠ k))

/-- `HashMap::entry(key).or_insert(val)`: inserts only if the key is absent. -/
def mapOrInsert (m : List (CacheKey × CacheEntry)) (k : CacheKey)
    (v : CacheEntry) : List (CacheKey × CacheEntry) :=
  if (mapGet m k).isSome then m else (k, v) :: m

/-- `Cache::get`. -/
def Cache.get (c : Cache) (k : CacheKey) : Option CacheEntry :=
  mapGet c.map k

/-- `Cache::remove_expired_map`: walks `keys` from the front, breaking at
the first projection with `expiry > now`, removing each walked key from the
map. -/
def removeExpiredMapGo (m : List (CacheKey × CacheEntry)) :
    List CacheExpiry → Nat → List (CacheKey × CacheEntry)
  | [], _ => m
  | ce :: rest, now =>
    if ce.expiry > now then m
    else removeExpiredMapGo (mapRemove m ce.key) rest now

/-- `Cache::remove_expired`: captures `now` once, prunes the map via the
front walk, retains in `keys` only projections with `expiry > now`, and
returns `key_count - keys.len()`. -/
def Cache.removeExpired (c : Cache) (now : Nat) : Cache × Nat :=
  let keyCount := c.keys.length
  let map1 := removeExpiredMapGo c.map c.keys now
  let keys1 := c.keys.filter (fun ce => decide (ce.expiry > now))
  ({ map := map1, keys := keys1 }, keyCount - keys1.length)

/-- Stable insertion of a projection into a list ordered ascending by
expiry (`CacheExpiry`'s `Ord` compares only `expiry`). -/
def sortedInsertExp (x : CacheExpiry) : List CacheExpiry → List CacheExpiry
  | [] => [x]
  | y :: ys => if x.expiry ≤ y.expiry then x :: y :: ys else y :: sortedInsertExp x ys

/-- `Vec::sort` on `Vec<CacheExpiry>`: a stable sort ascending by `expiry`
(the derived `Ord` compares only the `expiry` field), embedded as insertion
sort. -/
def sortByExpiry : List CacheExpiry → List CacheExpiry
  | [] => []
  | x :: xs => sortedInsertExp x (sortByExpiry xs)

/-- `Cache::upsert`: first `remove_expired()`; then
`keys.insert(0, expiry_data); keys.sort()` — i.e. sort the list with the
new projection prepended — then `map.entry(key).or_insert(val)`. -/
def Cache.upsert (c : Cache) (key : CacheKey) (val : CacheEntry) (now : Nat) : Cache :=
  let c1 := (c.removeExpired now).1
  let expiryData : CacheExpiry := { key := key, expiry := val.expiry }
  let keys1 := sortByExpiry (expiryData :: c1.keys)
  let map1 := mapOrInsert c1.map key val
  { map := map1, keys := keys1 }

/-- `Cache::len` (map size). -/
def Cache.size (c : Cache) : Nat := c.map.length

/-- `CacheEntry::calc_ttl`: remaining whole seconds until expiry, clamped
at 0. -/
def CacheEntry.calcTtl (e : CacheEntry) (now : Nat) : Nat :=
  if e.expiry > now then e.expiry - now else 0

structure DnsQuestion where
  qname : String
  qtype : Nat
  qclass : Nat
deriving DecidableEq

/-- Modelled from the spec: `Message { questions, answers, first_answer() →
optional AnswerRecord }` — the `DnsMessage` type lives in `dns::message`,
outside src; `first_answer` yields the first element of `answers`. -/
structure DnsMessage where
  questions : List DnsQuestion
  answers : List DnsAnswer
deriving DecidableEq

def DnsMessage.firstAnswer (m : DnsMessage) : Option DnsAnswer :=
  m.answers.head?

/-- `CacheEntry::from(msg)`: keyed by the first answer's `name/atype/aclass`
with the first answer's `ttl`; `None` when there is no answer. -/
def CacheEntry.fromMsg (msg : DnsMessage) (now : Nat) : Option CacheEntry :=
  match msg.firstAnswer with
  | some answer =>
    some (CacheEntry.new
      { qname := answer.name, qtype := answer.atype, qclass := answer.aclass }
      msg.answers answer.ttl now)
  | none => none

/-! ## Request state machine (src/request/tcp.rs)

`TcpRequest::ready` (tcp.rs:46-58) and `TcpRequest::receive`
(tcp.rs:85-107) are present in src but their transition logic is entirely
commented out: `ready` only emits a debug log (the dispatch match is
commented out) and `receive`'s whole body is commented out.  The compiled
functions therefore change nothing.  The state type below is modelled
from the spec (§4.3) since `RequestState` is declared in `request::base`,
outside src. -/

/-- Modelled from the spec: the request states of §4.3 (`RequestState`
is declared in `request::base`, outside src, and named in tcp.rs). -/
inductive RequestState where
  | New
  | Accepted
  | Forwarded
  | ResponseReceived
  | Complete
  | Error
deriving DecidableEq

/-- The outcome the upstream socket would deliver to a non-blocking
receive attempt (would-block, data, or an I/O error), passed as an
explicit environment parameter. -/
inductive RecvResult where
  | NoData
  | Data (bytes : List Nat)
  | RecvErr
deriving DecidableEq

/-- Modelled from the spec: the per-request fields of §3 that the
transitions would touch (`RequestBase` is declared in `request::base`,
outside src). -/
structure Request where
  state : RequestState
  responseBuf : Option (List Nat)
  timeoutArmed : Bool
deriving DecidableEq

/-- `TcpRequest::receive` (tcp.rs:85-107): the entire body — the receive
attempt, response buffering, timeout clearing and state changes — is
commented out, so the function performs nothing and ignores whatever the
socket would deliver. -/
def receive (r : Request) (_res : RecvResult) : Request := r

/-- `TcpRequest::ready` (tcp.rs:46-58): only a debug log runs; the
dispatch match (including the `Forwarded => receive` arm) is commented
out, so the request is returned unchanged whatever the event. -/
def ready (r : Request) (_res : RecvResult) : Request := r

/-! ## Concrete values used by witnesses and counterexamples -/

def bufW : WireBuf := { buf := [1, 2, 3, 4, 5], pos := 0 }

def bufShort : WireBuf := { buf := [9], pos := 0 }

/-- Key upserted twice in the duplicate-key run. -/
def kDup : CacheKey := { qname := "dup", qtype := 1, qclass := 1 }

def eDup1 : CacheEntry := CacheEntry.new kDup [] 10 0

def eDup2 : CacheEntry := CacheEntry.new kDup [] 20 0

/-- Cache after `upsert(kDup, eDup1)` then `upsert(kDup, eDup2)` at time 0. -/
def cDup : Cache := (Cache.empty.upsert kDup eDup1 0).upsert kDup eDup2 0

/-- Reachable cache with no map entry for `kDup` but a stale index
projection `(kDup, 20)`: the duplicate-key skew of `cDup` followed by
`remove_expired` at t=15. -/
def cStale : Cache := (cDup.removeExpired 15).1

/-- Entry inserted at t=15 with ttl 15, so expiry 30. -/
def eStale1 : CacheEntry := CacheEntry.new kDup [] 15 15

/-- Entry inserted at t=25 with ttl 30, so expiry 55. -/
def eStale2 : CacheEntry := CacheEntry.new kDup [] 30 25

def kA : CacheKey := { qname := "a", qtype := 1, qclass := 1 }

def kB : CacheKey := { qname := "b", qtype := 1, qclass := 1 }

def kC : CacheKey := { qname := "c", qtype := 1, qclass := 1 }

def eA : CacheEntry := CacheEntry.new kA [] 5 0

def eB : CacheEntry := CacheEntry.new kB [] 10 0

def eC : CacheEntry := CacheEntry.new kC [] 15 0

/-- Three distinct keys with TTLs 5 < 10 < 15 inserted at time 0. -/
def cThree : Cache :=
  ((Cache.empty.upsert kA eA 0).upsert kB eB 0).upsert kC eC 0

/-- Message whose question fields differ from its first answer's fields. -/
def msgW : DnsMessage :=
  { questions := [{ qname := "q", qtype := 1, qclass := 1 }],
    answers := [{ name := "ans", atype := 2, aclass := 3, ttl := 60, rdata := [] },
                { name := "x", atype := 9, aclass := 9, ttl := 99, rdata := [] }] }

def reqW : Request :=
  { state := RequestState.Forwarded, responseBuf := none, timeoutArmed := true }

end KoalaDns

namespace KoalaDns

/-! ## Theorems -/

/-- C2: `next_u16`/`next_u32` return no value and leave the position
unchanged when fewer than 2 (resp. 4) bytes remain past `pos`; otherwise
they return the big-endian interpretation of the 2 (resp. 4) bytes at
`pos` and advance the position by exactly 2 (resp. 4), leaving the buffer
contents unchanged. -/
theorem nextU16_nextU32_bounds (b : WireBuf) :
    (b.len < b.pos + 2 → b.nextU16 = (b, none)) ∧
    (b.pos + 2 ≤ b.len →
      b.nextU16 = ({ b with pos := b.pos + 2 },
        some (b.buf.getD b.pos 0 * 256 + b.buf.getD (b.pos + 1) 0))) ∧
    (b.len < b.pos + 4 → b.nextU32 = (b, none)) ∧
    (b.pos + 4 ≤ b.len →
      b.nextU32 = ({ b with pos := b.pos + 4 },
        some (b.buf.getD b.pos 0 * 16777216 + b.buf.getD (b.pos + 1) 0 * 65536 +
              b.buf.getD (b.pos + 2) 0 * 256 + b.buf.getD (b.pos + 3) 0))) := by
  refine ⟨fun h => ?_, fun h => ?_, fun h => ?_, fun h => ?_⟩
  · simp only [WireBuf.nextU16]
    rw [if_pos (by omega)]
  · simp only [WireBuf.nextU16, WireBuf.advance, WireBuf.seek]
    rw [if_neg (by omega), if_neg (by omega)]
  · simp only [WireBuf.nextU32]
    rw [if_pos (by omega)]
  · simp only [WireBuf.nextU32, WireBuf.advance, WireBuf.seek]
    rw [if_neg (by omega), if_neg (by omega)]

/-- Witness for C2 at concrete buffers: a 1-byte buffer fails both reads
unchanged; a 5-byte buffer at position 0 satisfies both success cases. -/
theorem nextU16_nextU32_bounds_witness :
    (bufShort.len < bufShort.pos + 2 ∧ bufShort.nextU16 = (bufShort, none)) ∧
    (bufW.pos + 2 ≤ bufW.len ∧
      bufW.nextU16 = ({ bufW with pos := bufW.pos + 2 },
        some (bufW.buf.getD bufW.pos 0 * 256 + bufW.buf.getD (bufW.pos + 1) 0))) ∧
    (bufShort.len < bufShort.pos + 4 ∧ bufShort.nextU32 = (bufShort, none)) ∧
    (bufW.pos + 4 ≤ bufW.len ∧
      bufW.nextU32 = ({ bufW with pos := bufW.pos + 4 },
        some (bufW.buf.getD bufW.pos 0 * 16777216 + bufW.buf.getD (bufW.pos + 1) 0 * 65536 +
              bufW.buf.getD (bufW.pos + 2) 0 * 256 + bufW.buf.getD (bufW.pos + 3) 0))) :=
  ⟨⟨by decide, (nextU16_nextU32_bounds bufShort).1 (by decide)⟩,
   ⟨by decide, (nextU16_nextU32_bounds bufW).2.1 (by decide)⟩,
   ⟨by decide, (nextU16_nextU32_bounds bufShort).2.2.1 (by decide)⟩,
   ⟨by decide, (nextU16_nextU32_bounds bufW).2.2.2 (by decide)⟩⟩

/-- C3: `write_u16`/`write_u32` are transactional: with at least 2
(resp. 4) bytes of room they write all bytes big-endian and advance the
position by exactly 2 (resp. 4) returning `true`; otherwise they return
`false` leaving buffer contents and position exactly unchanged. -/
theorem writeU16_writeU32_atomic (b : WireBuf) (v : Nat) :
    (b.len < b.pos + 2 → b.writeU16 v = (b, false)) ∧
    (b.pos + 2 ≤ b.len →
      b.writeU16 v =
        ({ buf := (b.buf.set b.pos (v / 256 % 256)).set (b.pos + 1) (v % 256),
           pos := b.pos + 2 }, true)) ∧
    (b.len < b.pos + 4 → b.writeU32 v = (b, false)) ∧
    (b.pos + 4 ≤ b.len →
      b.writeU32 v =
        ({ buf := (((b.buf.set b.pos (v / 16777216 % 256)).set
                     (b.pos + 1) (v / 65536 % 256)).set
                     (b.pos + 2) (v / 256 % 256)).set (b.pos + 3) (v % 256),
           pos := b.pos + 4 }, true)) := by
  refine ⟨fun h => ?_, fun h => ?_, fun h => ?_, fun h => ?_⟩
  · simp only [WireBuf.writeU16]
    rw [if_pos (by omega)]
  · have hlen : b.pos + 2 ≤ b.buf.length := h
    simp only [WireBuf.writeU16, WireBuf.advance, WireBuf.seek, WireBuf.len,
      List.length_set]
    rw [if_neg (by omega), if_neg (by omega)]
  · simp only [WireBuf.writeU32]
    rw [if_pos (by omega)]
  · have hlen : b.pos + 4 ≤ b.buf.length := h
    simp only [WireBuf.writeU32, WireBuf.advance, WireBuf.seek, WireBuf.len,
      List.length_set]
    rw [if_neg (by omega), if_neg (by omega)]

/-- Witness for C3: a 1-byte buffer fails both writes unchanged; a 5-byte
buffer at position 0 takes both success cases. -/
theorem writeU16_writeU32_atomic_witness :
    (bufShort.len < bufShort.pos + 2 ∧ bufShort.writeU16 43981 = (bufShort, false)) ∧
    (bufW.pos + 2 ≤ bufW.len ∧
      bufW.writeU16 43981 =
        ({ buf := (bufW.buf.set bufW.pos (43981 / 256 % 256)).set
             (bufW.pos + 1) (43981 % 256), pos := bufW.pos + 2 }, true)) ∧
    (bufShort.len < bufShort.pos + 4 ∧ bufShort.writeU32 43981 = (bufShort, false)) ∧
    (bufW.pos + 4 ≤ bufW.len ∧
      bufW.writeU32 43981 =
        ({ buf := (((bufW.buf.set bufW.pos (43981 / 16777216 % 256)).set
                     (bufW.pos + 1) (43981 / 65536 % 256)).set
                     (bufW.pos + 2) (43981 / 256 % 256)).set (bufW.pos + 3) (43981 % 256),
           pos := bufW.pos + 4 }, true)) :=
  ⟨⟨by decide, (writeU16_writeU32_atomic bufShort 43981).1 (by decide)⟩,
   ⟨by decide, (writeU16_writeU32_atomic bufW 43981).2.1 (by decide)⟩,
   ⟨by decide, (writeU16_writeU32_atomic bufShort 43981).2.2.1 (by decide)⟩,
   ⟨by decide, (writeU16_writeU32_atomic bufW 43981).2.2.2 (by decide)⟩⟩

/-! ### Buffer helper lemmas -/

theorem seek_ok (b : WireBuf) (p : Nat) (h : p ≤ b.len) :
    b.seek p = ({ b with pos := p }, true) := by
  simp only [WireBuf.seek]
  rw [if_neg (by omega)]

theorem advance_of_le (b : WireBuf) (n : Nat) (h : b.pos + n ≤ b.len) :
    b.advance n = ({ b with pos := b.pos + n }, true) := by
  simp only [WireBuf.advance, WireBuf.seek]
  rw [if_neg (by omega)]

theorem nextU8_some (b : WireBuf) (h : b.pos < b.len) :
    b.nextU8 = ({ b with pos := b.pos + 1 }, some (b.buf.getD b.pos 0)) := by
  simp only [WireBuf.nextU8, WireBuf.peekU8, WireBuf.advance, WireBuf.seek]
  rw [if_neg (by omega)]
  simp only []
  rw [if_neg (by omega)]

theorem nextU8_none (b : WireBuf) (h : b.len ≤ b.pos) :
    b.nextU8 = (b, none) := by
  simp only [WireBuf.nextU8, WireBuf.peekU8]
  rw [if_pos (by omega)]

theorem writeU8_ok (b : WireBuf) (x : Nat) (h : b.pos < b.len) :
    b.writeU8 x = ({ buf := b.buf.set b.pos (x % 256), pos := b.pos + 1 }, true) := by
  have hlen : b.pos < b.buf.length := h
  simp only [WireBuf.writeU8, WireBuf.advance, WireBuf.seek, WireBuf.len,
    List.length_set]
  rw [if_neg (by omega), if_neg (by omega)]

theorem writeU8_fail (b : WireBuf) (x : Nat) (h : b.len ≤ b.pos) :
    b.writeU8 x = (b, false) := by
  simp only [WireBuf.writeU8]
  rw [if_pos (by omega)]

theorem writeU32_ok (b : WireBuf) (v : Nat) (h : b.pos + 4 ≤ b.len) :
    b.writeU32 v =
      ({ buf := (((b.buf.set b.pos (v / 16777216 % 256)).set
                   (b.pos + 1) (v / 65536 % 256)).set
                   (b.pos + 2) (v / 256 % 256)).set (b.pos + 3) (v % 256),
         pos := b.pos + 4 }, true) := by
  have hlen : b.pos + 4 ≤ b.buf.length := h
  simp only [WireBuf.writeU32, WireBuf.advance, WireBuf.seek, WireBuf.len,
    List.length_set]
  rw [if_neg (by omega), if_neg (by omega)]

theorem writeU32_fail (b : WireBuf) (v : Nat) (h : b.len < b.pos + 4) :
    b.writeU32 v = (b, false) := by
  simp only [WireBuf.writeU32]
  rw [if_pos (by omega)]

theorem nextU32_some (b : WireBuf) (h : b.pos + 4 ≤ b.len) :
    b.nextU32 = ({ b with pos := b.pos + 4 },
      some (b.buf.getD b.pos 0 * 16777216 + b.buf.getD (b.pos + 1) 0 * 65536 +
            b.buf.getD (b.pos + 2) 0 * 256 + b.buf.getD (b.pos + 3) 0)) := by
  simp only [WireBuf.nextU32, WireBuf.advance, WireBuf.seek]
  rw [if_neg (by omega), if_neg (by omega)]

theorem getD_set_self (l : List Nat) (i x : Nat) (h : i < l.length) :
    (l.set i x).getD i 0 = x := by
  simp [List.getD_eq_getElem?_getD, List.getElem?_set_eq_of_lt, h]

theorem getD_set_ne (l : List Nat) (i j x : Nat) (h : i ≠ j) :
    (l.set i x).getD j 0 = l.getD j 0 := by
  simp [List.getD_eq_getElem?_getD, List.getElem?_set_ne h]

theorem setMany_length (xs : List Nat) : ∀ (l : List Nat) (p : Nat),
    (setMany l p xs).length = l.length := by
  induction xs with
  | nil => intro l p; rfl
  | cons x t ih => intro l p; simp [setMany, ih, List.length_set]

theorem writeBytesLoop_ok (xs : List Nat) : ∀ (b : WireBuf),
    b.pos + xs.length ≤ b.len →
    writeBytesLoop b xs =
      ({ buf := setMany b.buf b.pos xs, pos := b.pos + xs.length }, true) := by
  induction xs with
  | nil => intro b _; simp [writeBytesLoop, setMany]
  | cons x t ih =>
    intro b h
    have hw := writeU8_ok b x (by simp only [List.length_cons] at h; omega)
    simp only [writeBytesLoop, hw]
    rw [ih { buf := b.buf.set b.pos (x % 256), pos := b.pos + 1 }
      (by
        simp only [List.length_cons] at h
        have hlen : b.pos + (t.length + 1) ≤ b.buf.length := h
        simp only [WireBuf.len, List.length_set]
        omega)]
    simp only [setMany, List.length_cons, Bool.true_and]
    have harith : b.pos + 1 + t.length = b.pos + (t.length + 1) := by omega
    rw [harith]

theorem setMany_eq_splice (xs : List Nat) : ∀ (l : List Nat) (p : Nat),
    p + xs.length ≤ l.length →
    setMany l p xs =
      l.take p ++ xs.map (fun x => x % 256) ++ l.drop (p + xs.length) := by
  induction xs with
  | nil => intro l p h; simp [setMany]
  | cons x t ih =>
    intro l p h
    simp only [List.length_cons] at h
    have hp : p < l.length := by omega
    simp only [setMany]
    rw [ih (l.set p (x % 256)) (p + 1) (by simp only [List.length_set]; omega)]
    have htake : (l.set p (x % 256)).take (p + 1) = l.take p ++ [x % 256] := by
      rw [List.set_eq_take_cons_drop (x % 256) hp, List.take_append_eq_append_take]
      simp [List.take_take, List.length_take, Nat.min_def, Nat.le_of_lt hp]
    have hdrop : (l.set p (x % 256)).drop (p + 1 + t.length) = l.drop (p + 1 + t.length) := by
      rw [List.drop_set_of_lt]
      omega
    rw [htake, hdrop]
    simp only [List.map_cons, List.length_cons]
    have harith : p + 1 + t.length = p + (t.length + 1) := by omega
    rw [harith]
    simp [List.append_assoc]

theorem nextBytes_pos_le (n : Nat) : ∀ (b : WireBuf), b.pos ≤ b.len →
    (b.nextBytes n).1.pos ≤ (b.nextBytes n).1.len := by
  induction n with
  | zero => intro b hb; simpa [WireBuf.nextBytes] using hb
  | succ m ih =>
    intro b hb
    by_cases hc : b.pos < b.len
    · have h8 := nextU8_some b hc
      simp only [WireBuf.nextBytes, h8]
      exact ih { b with pos := b.pos + 1 } (by exact hc)
    · have h8 := nextU8_none b (by omega)
      simp only [WireBuf.nextBytes, h8]
      exact hb

/-- C7: after a successful `write_u32` of a representable value `v` at
position `p`, seeking back to `p` and reading with `next_u32` yields
exactly `v`. -/
theorem writeU32_nextU32_roundtrip (b : WireBuf) (v : Nat) (hv : v < 4294967296)
    (hok : (b.writeU32 v).2 = true) :
    ((((b.writeU32 v).1.seek b.pos).1).nextU32).2 = some v := by
  have hcap : b.pos + 4 ≤ b.len := by
    by_contra hc
    rw [writeU32_fail b v (by omega)] at hok
    exact Bool.false_ne_true hok
  have hblen : b.pos + 4 ≤ b.buf.length := hcap
  rw [writeU32_ok b v hcap]
  rw [seek_ok _ b.pos (by
    simp only [WireBuf.len, List.length_set]
    omega)]
  rw [nextU32_some _ (by
    simp only [WireBuf.len, List.length_set]
    omega)]
  have g3 : ((((b.buf.set b.pos (v / 16777216 % 256)).set
      (b.pos + 1) (v / 65536 % 256)).set
      (b.pos + 2) (v / 256 % 256)).set (b.pos + 3) (v % 256)).getD (b.pos + 3) 0
      = v % 256 := by
    rw [getD_set_self]
    simp only [List.length_set]
    omega
  have g2 : ((((b.buf.set b.pos (v / 16777216 % 256)).set
      (b.pos + 1) (v / 65536 % 256)).set
      (b.pos + 2) (v / 256 % 256)).set (b.pos + 3) (v % 256)).getD (b.pos + 2) 0
      = v / 256 % 256 := by
    rw [getD_set_ne _ _ _ _ (by omega), getD_set_self]
    simp only [List.length_set]
    omega
  have g1 : ((((b.buf.set b.pos (v / 16777216 % 256)).set
      (b.pos + 1) (v / 65536 % 256)).set
      (b.pos + 2) (v / 256 % 256)).set (b.pos + 3) (v % 256)).getD (b.pos + 1) 0
      = v / 65536 % 256 := by
    rw [getD_set_ne _ _ _ _ (by omega), getD_set_ne _ _ _ _ (by omega), getD_set_self]
    simp only [List.length_set]
    omega
  have g0 : ((((b.buf.set b.pos (v / 16777216 % 256)).set
      (b.pos + 1) (v / 65536 % 256)).set
      (b.pos + 2) (v / 256 % 256)).set (b.pos + 3) (v % 256)).getD b.pos 0
      = v / 16777216 % 256 := by
    rw [getD_set_ne _ _ _ _ (by omega), getD_set_ne _ _ _ _ (by omega),
        getD_set_ne _ _ _ _ (by omega), getD_set_self]
    omega
  simp only [g0, g1, g2, g3]
  congr 1
  omega

/-- Witness for C7 at a concrete buffer and value. -/
theorem writeU32_nextU32_roundtrip_witness :
    305419896 < 4294967296 ∧ (bufW.writeU32 305419896).2 = true ∧
    ((((bufW.writeU32 305419896).1.seek bufW.pos).1).nextU32).2 = some 305419896 :=
  ⟨by decide, by decide,
   writeU32_nextU32_roundtrip bufW 305419896 (by decide) (by decide)⟩

/-- C8: the cursor invariant `0 ≤ pos ≤ len` holds for a freshly
constructed buffer and is preserved by `seek`, `advance`, `reset` and
every read and write; `seek(p)` succeeds iff `p ≤ len` and leaves the
position unchanged on failure. -/
theorem cursor_invariant_preserved (b : WireBuf) (p n byte v : Nat) (bs : List Nat)
    (h : b.pos ≤ b.len) :
    (({ buf := bs, pos := 0 } : WireBuf).pos ≤ ({ buf := bs, pos := 0 } : WireBuf).len) ∧
    ((b.seek p).2 = true ↔ p ≤ b.len) ∧
    ((b.seek p).2 = false → (b.seek p).1 = b) ∧
    ((b.seek p).1.pos ≤ (b.seek p).1.len) ∧
    ((b.advance n).1.pos ≤ (b.advance n).1.len) ∧
    (b.reset.pos ≤ b.reset.len) ∧
    ((b.nextU8).1.pos ≤ (b.nextU8).1.len) ∧
    ((b.nextU16).1.pos ≤ (b.nextU16).1.len) ∧
    ((b.nextU32).1.pos ≤ (b.nextU32).1.len) ∧
    ((b.nextBytes n).1.pos ≤ (b.nextBytes n).1.len) ∧
    ((b.writeU8 byte).1.pos ≤ (b.writeU8 byte).1.len) ∧
    ((b.writeU16 v).1.pos ≤ (b.writeU16 v).1.len) ∧
    ((b.writeU32 v).1.pos ≤ (b.writeU32 v).1.len) ∧
    ((b.writeBytes bs).1.pos ≤ (b.writeBytes bs).1.len) := by
  refine ⟨Nat.zero_le _, ?_, ?_, ?_, ?_, ?_, ?_, ?_, ?_,
    nextBytes_pos_le n b h, ?_, ?_, ?_, ?_⟩
  · by_cases hp : p ≤ b.len
    · rw [seek_ok b p hp]
      simp [hp]
    · have he : b.seek p = (b, false) := by
        simp only [WireBuf.seek]
        rw [if_pos (by omega)]
      rw [he]
      simp [hp]
  · intro hf
    by_cases hp : p ≤ b.len
    · rw [seek_ok b p hp] at hf
      exact absurd hf (by simp)
    · simp only [WireBuf.seek]
      rw [if_pos (by omega)]
  · by_cases hp : p ≤ b.len
    · rw [seek_ok b p hp]
      exact hp
    · have he : b.seek p = (b, false) := by
        simp only [WireBuf.seek]
        rw [if_pos (by omega)]
      rw [he]
      exact h
  · simp only [WireBuf.advance]
    by_cases hp : b.pos + n ≤ b.len
    · rw [seek_ok b _ hp]
      exact hp
    · have he : b.seek (b.pos + n) = (b, false) := by
        simp only [WireBuf.seek]
        rw [if_pos (by omega)]
      rw [he]
      exact h
  · simp only [WireBuf.reset]
    rw [seek_ok b 0 (Nat.zero_le _)]
    exact Nat.zero_le _
  · by_cases hc : b.pos < b.len
    · rw [nextU8_some b hc]
      exact hc
    · rw [nextU8_none b (by omega)]
      exact h
  · by_cases hc : b.pos + 2 ≤ b.len
    · simp only [WireBuf.nextU16, WireBuf.advance, WireBuf.seek]
      rw [if_neg (by omega), if_neg (by omega)]
      exact hc
    · simp only [WireBuf.nextU16]
      rw [if_pos (by omega)]
      exact h
  · by_cases hc : b.pos + 4 ≤ b.len
    · rw [nextU32_some b hc]
      exact hc
    · simp only [WireBuf.nextU32]
      rw [if_pos (by omega)]
      exact h
  · by_cases hc : b.pos < b.len
    · rw [writeU8_ok b byte hc]
      have hlen : b.pos < b.buf.length := hc
      simpa [WireBuf.len, List.length_set] using hlen
    · rw [writeU8_fail b byte (by omega)]
      exact h
  · by_cases hc : b.pos + 2 ≤ b.len
    · have hlen : b.pos + 2 ≤ b.buf.length := hc
      simp only [WireBuf.writeU16, WireBuf.advance, WireBuf.seek, WireBuf.len,
        List.length_set]
      rw [if_neg (by omega), if_neg (by omega)]
      simpa [List.length_set] using hlen
    · simp only [WireBuf.writeU16]
      rw [if_pos (by omega)]
      exact h
  · by_cases hc : b.pos + 4 ≤ b.len
    · rw [writeU32_ok b v hc]
      have hlen : b.pos + 4 ≤ b.buf.length := hc
      simpa [WireBuf.len, List.length_set] using hlen
    · simp only [WireBuf.writeU32]
      rw [if_pos (by omega)]
      exact h
  · by_cases hc : b.pos + bs.length ≤ b.len
    · simp only [WireBuf.writeBytes]
      rw [if_neg (by omega), writeBytesLoop_ok bs b hc]
      have hlen : b.pos + bs.length ≤ b.buf.length := hc
      simpa [WireBuf.len, setMany_length] using hlen
    · simp only [WireBuf.writeBytes]
      rw [if_pos (by omega)]
      exact h

/-- Witness for C8 at a concrete buffer: the seek success criterion,
extracted from the instantiated invariant theorem. -/
theorem cursor_invariant_preserved_witness :
    bufW.pos ≤ bufW.len ∧ ((bufW.seek 3).2 = true ↔ 3 ≤ bufW.len) :=
  ⟨by decide,
   (cursor_invariant_preserved bufW 3 2 7 999 [1, 2] (by decide)).2.1⟩

/-- C9: `write_bytes` pre-validates `pos + |s| ≤ len`; on failure the
buffer and position are unchanged and `false` is returned; on success
every per-byte `write_u8` in the loop succeeds, all the bytes land in
order at `pos`, and the position advances by `|s|`. -/
theorem writeBytes_prevalidated (b : WireBuf) (bs : List Nat)
    (hbytes : ∀ x ∈ bs, x < 256) :
    (b.len < b.pos + bs.length → b.writeBytes bs = (b, false)) ∧
    (b.pos + bs.length ≤ b.len →
      (writeBytesLoop b bs).2 = true ∧
      b.writeBytes bs =
        ({ buf := b.buf.take b.pos ++ bs ++ b.buf.drop (b.pos + bs.length),
           pos := b.pos + bs.length }, true)) := by
  constructor
  · intro h
    simp only [WireBuf.writeBytes]
    rw [if_pos (by omega)]
  · intro h
    have hloop := writeBytesLoop_ok bs b h
    have hsplice := setMany_eq_splice bs b.buf b.pos h
    have hmap : bs.map (fun x => x % 256) = bs := by
      have hcongr : bs.map (fun x => x % 256) = bs.map id :=
        List.map_congr_left (fun a ha => Nat.mod_eq_of_lt (hbytes a ha))
      rw [hcongr, List.map_id]
    refine ⟨by rw [hloop], ?_⟩
    simp only [WireBuf.writeBytes]
    rw [if_neg (by omega), hloop, hsplice, hmap]

/-- Witness for C9: both the failure and the success case at concrete
buffers. -/
theorem writeBytes_prevalidated_witness :
    (∀ x ∈ ([7, 8] : List Nat), x < 256) ∧
    (bufShort.len < bufShort.pos + ([7, 8] : List Nat).length ∧
      bufShort.writeBytes [7, 8] = (bufShort, false)) ∧
    (bufW.pos + ([7, 8] : List Nat).length ≤ bufW.len ∧
      (writeBytesLoop bufW [7, 8]).2 = true ∧
      bufW.writeBytes [7, 8] =
        ({ buf := bufW.buf.take bufW.pos ++ [7, 8] ++
             bufW.buf.drop (bufW.pos + ([7, 8] : List Nat).length),
           pos := bufW.pos + ([7, 8] : List Nat).length }, true)) :=
  ⟨by decide,
   ⟨by decide, (writeBytes_prevalidated bufShort [7, 8] (by decide)).1 (by decide)⟩,
   ⟨by decide, (writeBytes_prevalidated bufW [7, 8] (by decide)).2 (by decide)⟩⟩

/-! ### Cache helper lemmas -/

theorem mapGet_cons_eq (p : CacheKey × CacheEntry) (t : List (CacheKey × CacheEntry))
    (q : CacheKey) (h : p.1 = q) : mapGet (p :: t) q = some p.2 := by
  simp only [mapGet, List.find?_cons, h, decide_True, Option.map_some']

theorem mapGet_cons_ne (p : CacheKey × CacheEntry) (t : List (CacheKey × CacheEntry))
    (q : CacheKey) (h : ¬ p.1 = q) : mapGet (p :: t) q = mapGet t q := by
  simp only [mapGet, List.find?_cons, h, decide_False]

theorem mapRemove_cons_eq (p : CacheKey × CacheEntry) (t : List (CacheKey × CacheEntry))
    (k : CacheKey) (h : p.1 = k) : mapRemove (p :: t) k = mapRemove t k := by
  simp only [mapRemove, List.filter_cons, h]
  simp

theorem mapRemove_cons_ne (p : CacheKey × CacheEntry) (t : List (CacheKey × CacheEntry))
    (k : CacheKey) (h : ¬ p.1 = k) : mapRemove (p :: t) k = p :: mapRemove t k := by
  simp only [mapRemove, List.filter_cons, h]
  simp [h]

theorem mapGet_mapRemove (m : List (CacheKey × CacheEntry)) (k q : CacheKey) :
    mapGet (mapRemove m k) q = if q = k then none else mapGet m q := by
  induction m with
  | nil =>
    simp [mapGet, mapRemove]
  | cons p t ih =>
    by_cases hpk : p.1 = k
    · rw [mapRemove_cons_eq p t k hpk, ih]
      by_cases hqk : q = k
      · simp [hqk]
      · have hpq : ¬ p.1 = q := by rw [hpk]; exact fun hh => hqk hh.symm
        rw [mapGet_cons_ne p t q hpq]
    · rw [mapRemove_cons_ne p t k hpk]
      by_cases hpq : p.1 = q
      · have hqk : ¬ q = k := by rw [← hpq]; exact hpk
        rw [mapGet_cons_eq _ _ q hpq, mapGet_cons_eq p t q hpq, if_neg hqk]
      · rw [mapGet_cons_ne _ _ q hpq, mapGet_cons_ne p t q hpq, ih]

theorem removeExpiredMapGo_get (ps : List CacheExpiry) :
    ∀ (m : List (CacheKey × CacheEntry)) (now : Nat) (q : CacheKey),
    mapGet (removeExpiredMapGo m ps now) q =
      if (ps.takeWhile (fun ce => decide (ce.expiry ≤ now))).any
           (fun ce => decide (ce.key = q)) = true
      then none else mapGet m q := by
  induction ps with
  | nil => intro m now q; simp [removeExpiredMapGo]
  | cons ce t ih =>
    intro m now q
    by_cases hce : ce.expiry > now
    · have hdec : decide (ce.expiry ≤ now) = false := by
        simp only [decide_eq_false_iff_not]
        omega
      simp [removeExpiredMapGo, hce, List.takeWhile_cons, hdec]
    · have hle : ce.expiry ≤ now := by omega
      have hdec : decide (ce.expiry ≤ now) = true := by simp [hle]
      simp only [removeExpiredMapGo, if_neg hce, List.takeWhile_cons, hdec]
      rw [ih (mapRemove m ce.key) now q, mapGet_mapRemove m ce.key q]
      by_cases h1 : (t.takeWhile (fun ce => decide (ce.expiry ≤ now))).any
          (fun ce => decide (ce.key = q)) = true
      · simp [h1]
      · by_cases h2 : ce.key = q
        · simp [h1, h2]
        · have h2' : ¬ q = ce.key := fun hh => h2 hh.symm
          simp [h1, h2, h2']

theorem takeWhile_le_eq_filter (now : Nat) : ∀ (l : List CacheExpiry),
    l.Pairwise (fun a b => a.expiry ≤ b.expiry) →
    l.takeWhile (fun ce => decide (ce.expiry ≤ now)) =
      l.filter (fun ce => decide (ce.expiry ≤ now)) := by
  intro l
  induction l with
  | nil => intro _; rfl
  | cons ce t ih =>
    intro hl
    rcases List.pairwise_cons.mp hl with ⟨hhead, htail⟩
    by_cases hce : ce.expiry ≤ now
    · simp [List.takeWhile_cons, List.filter_cons, hce, ih htail]
    · have hnil : t.filter (fun ce => decide (ce.expiry ≤ now)) = [] := by
        rw [List.filter_eq_nil_iff]
        intro a ha
        have hha := hhead a ha
        simp only [decide_eq_true_eq]
        omega
      simp [List.takeWhile_cons, List.filter_cons, hce, hnil]

theorem length_filter_partition (l : List CacheExpiry) (p : CacheExpiry → Bool) :
    (l.filter p).length + (l.filter (fun x => !(p x))).length = l.length := by
  induction l with
  | nil => rfl
  | cons a t ih =>
    by_cases h : p a = true <;> simp [List.filter_cons, h] <;> omega

theorem self_mem_sortedInsert (x : CacheExpiry) (l : List CacheExpiry) :
    x ∈ sortedInsertExp x l := by
  induction l with
  | nil => simp [sortedInsertExp]
  | cons y ys ih =>
    by_cases hc : x.expiry ≤ y.expiry <;> simp [sortedInsertExp, hc, ih]

/-- C1: the claimed map-size = index-size invariant fails on the code: a
second `upsert` with an already-present key adds a projection to the index
but not an entry to the map, so after the two-upsert sequence (and after
the `remove_expired` inside or following it) the map holds 1 entry while
the index holds 2 projections — the `debug_assert` at cache/mod.rs:67
is violated. -/
theorem map_index_size_mismatch :
    cDup.size = 1 ∧ cDup.keys.length = 2 ∧
    (cDup.removeExpired 0).1.size = 1 ∧
    (cDup.removeExpired 0).1.keys.length = 2 ∧
    ¬ (cDup.removeExpired 0).1.size = (cDup.removeExpired 0).1.keys.length := by
  decide

theorem mem_sortedInsert_iff (x y : CacheExpiry) (l : List CacheExpiry) :
    y ∈ sortedInsertExp x l ↔ y = x ∨ y ∈ l := by
  induction l with
  | nil => simp [sortedInsertExp]
  | cons z zs ih =>
    by_cases hc : x.expiry ≤ z.expiry
    · simp only [sortedInsertExp, if_pos hc, List.mem_cons]
    · simp only [sortedInsertExp, if_neg hc, List.mem_cons, ih]
      tauto

theorem mem_sortByExpiry (y : CacheExpiry) (l : List CacheExpiry) :
    y ∈ sortByExpiry l ↔ y ∈ l := by
  induction l with
  | nil => simp [sortByExpiry]
  | cons z zs ih =>
    simp only [sortByExpiry, mem_sortedInsert_iff, List.mem_cons, ih]

/-- C4 counterexample: on a reachable cache with no map entry for `kDup`
but a stale index projection `(kDup, 20)`, upserting `(kDup, eStale1)` at
t=15 and then `(kDup, eStale2)` at t=25 — with `eStale1` still unexpired
(25 < 30) — yields `get(kDup) = eStale2`, not `eStale1`: the second
upsert's folded-in `remove_expired` walks the stale projection and evicts
`eStale1` before `or_insert` runs, refuting the claim as stated. -/
theorem upsert_overwrite_after_stale_projection :
    cStale.get kDup = none ∧
    (25 : Nat) < eStale1.expiry ∧
    ((cStale.upsert kDup eStale1 15).upsert kDup eStale2 25).get kDup =
      some eStale2 ∧
    eStale2 ≠ eStale1 ∧
    ¬ (((cStale.upsert kDup eStale1 15).upsert kDup eStale2 25).get kDup =
        some eStale1) := by
  decide

theorem upsert_get_of_absent (c : Cache) (k : CacheKey) (v : CacheEntry) (n : Nat)
    (hget : c.get k = none) :
    (c.upsert k v n).get k = some v ∧
    (∀ ce ∈ (c.upsert k v n).keys, ce.key = k →
      ce.expiry = v.expiry ∨ (ce ∈ c.keys ∧ n < ce.expiry)) := by
  have hA : mapGet (removeExpiredMapGo c.map c.keys n) k = none := by
    rw [removeExpiredMapGo_get]
    split
    · rfl
    · exact hget
  constructor
  · show mapGet (mapOrInsert (removeExpiredMapGo c.map c.keys n) k v) k = some v
    have hmo : mapOrInsert (removeExpiredMapGo c.map c.keys n) k v =
        (k, v) :: removeExpiredMapGo c.map c.keys n := by
      simp [mapOrInsert, hA]
    rw [hmo]
    exact mapGet_cons_eq _ _ _ rfl
  · intro ce hce hk
    have hkeys : (c.upsert k v n).keys =
        sortByExpiry ({ key := k, expiry := v.expiry } ::
          c.keys.filter (fun x => decide (x.expiry > n))) := rfl
    rw [hkeys] at hce
    rcases List.mem_cons.mp ((mem_sortByExpiry ce _).mp hce) with heq | hmemf
    · left
      rw [heq]
    · right
      have hin := List.mem_filter.mp hmemf
      exact ⟨hin.1, by simpa using hin.2⟩

theorem upsert_get_of_present (c : Cache) (k : CacheKey) (v v2 : CacheEntry)
    (n2 : Nat) (hget : c.get k = some v)
    (hkeys : ∀ ce ∈ c.keys, ce.key = k → n2 < ce.expiry) :
    (c.upsert k v2 n2).get k = some v ∧
    ({ key := k, expiry := v2.expiry } : CacheExpiry) ∈ (c.upsert k v2 n2).keys := by
  have hany : (c.keys.takeWhile (fun ce => decide (ce.expiry ≤ n2))).any
      (fun ce => decide (ce.key = k)) = false := by
    rw [List.any_eq_false]
    intro ce hce
    have h1 : ce.expiry ≤ n2 := by simpa using List.mem_takeWhile_imp hce
    have h2 : ce ∈ c.keys := (List.takeWhile_prefix _).subset hce
    simp only [decide_eq_true_eq]
    intro hk
    have h3 := hkeys ce h2 hk
    omega
  have hB : mapGet (removeExpiredMapGo c.map c.keys n2) k = some v := by
    rw [removeExpiredMapGo_get, hany, if_neg Bool.false_ne_true]
    exact hget
  constructor
  · show mapGet (mapOrInsert (removeExpiredMapGo c.map c.keys n2) k v2) k = some v
    have hmo : mapOrInsert (removeExpiredMapGo c.map c.keys n2) k v2 =
        removeExpiredMapGo c.map c.keys n2 := by
      simp [mapOrInsert, hB]
    rw [hmo]
    exact hB
  · show ({ key := k, expiry := v2.expiry } : CacheExpiry) ∈
      sortByExpiry ({ key := k, expiry := v2.expiry } ::
        c.keys.filter (fun x => decide (x.expiry > n2)))
    exact (mem_sortByExpiry _ _).mpr (List.mem_cons_self _ _)

/-- C4 (amended): for every cache with no map entry for `k` and no index
projection for `k` whose expiry lies after the first upsert's time and at
or before the second upsert's time, `upsert(k, e1)` followed by
`upsert(k, e2)` while `e1` is still unexpired leaves `get(k) = e1` —
`e2`'s data is discarded from the map — while `e2`'s expiry projection is
still added to the index. -/
theorem upsert_no_overwrite (c : Cache) (k : CacheKey) (v1 v2 : CacheEntry)
    (n1 n2 : Nat) (hget : c.get k = none)
    (hstale : ∀ ce ∈ c.keys, ce.key = k → ce.expiry ≤ n1 ∨ n2 < ce.expiry)
    (hfresh : n2 < v1.expiry) :
    ((c.upsert k v1 n1).upsert k v2 n2).get k = some v1 ∧
    ({ key := k, expiry := v2.expiry } : CacheExpiry) ∈
      ((c.upsert k v1 n1).upsert k v2 n2).keys := by
  obtain ⟨hget1, hkeys1⟩ := upsert_get_of_absent c k v1 n1 hget
  have hkeys2 : ∀ ce ∈ (c.upsert k v1 n1).keys, ce.key = k → n2 < ce.expiry := by
    intro ce hce hk
    rcases hkeys1 ce hce hk with heq | ⟨hin, hgt⟩
    · rw [heq]
      exact hfresh
    · rcases hstale ce hin hk with hle | hgt2
      · omega
      · exact hgt2
  exact upsert_get_of_present (c.upsert k v1 n1) k v1 v2 n2 hget1 hkeys2

/-- Witness for C4 at concrete keys, entries and times (empty starting
cache, vacuously stale-free). -/
theorem upsert_no_overwrite_witness :
    Cache.empty.get kDup = none ∧
    (∀ ce ∈ Cache.empty.keys, ce.key = kDup → ce.expiry ≤ 0 ∨ 0 < ce.expiry) ∧
    (0 : Nat) < eDup1.expiry ∧
    ((Cache.empty.upsert kDup eDup1 0).upsert kDup eDup2 0).get kDup =
      some eDup1 ∧
    ({ key := kDup, expiry := eDup2.expiry } : CacheExpiry) ∈
      ((Cache.empty.upsert kDup eDup1 0).upsert kDup eDup2 0).keys :=
  ⟨by decide, by decide, by decide,
   upsert_no_overwrite Cache.empty kDup eDup1 eDup2 0 0 (by decide) (by decide)
     (by decide)⟩

/-- C5: with the expiry index sorted ascending (as every reachable cache
state keeps it), `remove_expired` retains in the index exactly the
projections with expiry `> now`, returns the number of projections with
expiry `≤ now`, and removes from the map exactly the keys that occur in a
projection with expiry `≤ now`; on the concrete three-entry scenario with
TTLs 5 < 10 < 15 inserted at time 0 and `now = 7` it returns 1, the
expired key's `get` yields nothing, and the other two entries remain. -/
theorem removeExpired_spec (c : Cache) (now : Nat)
    (hs : c.keys.Pairwise (fun a b => a.expiry ≤ b.expiry)) :
    ((c.removeExpired now).1.keys =
        c.keys.filter (fun ce => decide (ce.expiry > now))) ∧
    ((c.removeExpired now).2 =
        (c.keys.filter (fun ce => decide (ce.expiry ≤ now))).length) ∧
    (∀ q : CacheKey,
      (c.removeExpired now).1.get q =
        if c.keys.any (fun ce => decide (ce.key = q) && decide (ce.expiry ≤ now)) = true
        then none else c.get q) ∧
    ((cThree.removeExpired 7).2 = 1 ∧
     (cThree.removeExpired 7).1.get kA = none ∧
     (cThree.removeExpired 7).1.get kB = some eB ∧
     (cThree.removeExpired 7).1.get kC = some eC) := by
  refine ⟨rfl, ?_, ?_, by decide⟩
  · show c.keys.length -
        (c.keys.filter (fun ce => decide (ce.expiry > now))).length = _
    have hpart := length_filter_partition c.keys (fun ce => decide (ce.expiry ≤ now))
    have hcompl : c.keys.filter (fun ce => !(decide (ce.expiry ≤ now))) =
        c.keys.filter (fun ce => decide (ce.expiry > now)) := by
      apply List.filter_congr
      intro x _
      by_cases hx : x.expiry ≤ now
      · have h2 : ¬ (x.expiry > now) := by omega
        simp [hx, h2]
      · have h2 : x.expiry > now := by omega
        simp [hx, h2]
    rw [hcompl] at hpart
    have hle := List.length_filter_le (fun ce => decide (ce.expiry > now)) c.keys
    omega
  · intro q
    show mapGet (removeExpiredMapGo c.map c.keys now) q = _
    rw [removeExpiredMapGo_get c.keys c.map now q,
        takeWhile_le_eq_filter now c.keys hs, List.any_filter]
    have hcomm : ∀ ce : CacheExpiry,
        (decide (ce.expiry ≤ now) && decide (ce.key = q)) =
        (decide (ce.key = q) && decide (ce.expiry ≤ now)) := by
      intro ce
      exact Bool.and_comm _ _
    simp only [hcomm]
    rfl

/-- Witness for C5: the sortedness hypothesis holds on the concrete
scenario cache and the index-filter part of the conclusion follows. -/
theorem removeExpired_spec_witness :
    cThree.keys.Pairwise (fun a b => a.expiry ≤ b.expiry) ∧
    (cThree.removeExpired 7).1.keys =
      cThree.keys.filter (fun ce => decide (ce.expiry > 7)) :=
  ⟨by decide, (removeExpired_spec cThree 7 (by decide)).1⟩

/-- C10: `CacheEntry::from(msg)` yields nothing exactly when the message
has no answer; otherwise the entry is keyed by the first answer's
`name/atype/aclass` (not the question's fields) and carries the first
answer's `ttl`. -/
theorem fromMsg_spec (msg : DnsMessage) (now : Nat) :
    (CacheEntry.fromMsg msg now = none ↔ msg.firstAnswer = none) ∧
    (∀ a : DnsAnswer, msg.firstAnswer = some a →
      CacheEntry.fromMsg msg now = some
        { key := { qname := a.name, qtype := a.atype, qclass := a.aclass },
          answers := msg.answers, ttl := a.ttl, expiry := now + a.ttl }) := by
  constructor
  · cases hfa : msg.firstAnswer <;> simp [CacheEntry.fromMsg, hfa]
  · intro a hfa
    simp [CacheEntry.fromMsg, hfa, CacheEntry.new]

/-- Witness for C10 at a message whose question fields differ from its
first answer's fields: the key is built from the answer. -/
theorem fromMsg_spec_witness :
    msgW.firstAnswer =
      some { name := "ans", atype := 2, aclass := 3, ttl := 60, rdata := [] } ∧
    CacheEntry.fromMsg msgW 100 = some
      { key := { qname := "ans", qtype := 2, qclass := 3 },
        answers := msgW.answers, ttl := 60, expiry := 100 + 60 } :=
  ⟨by decide,
   (fromMsg_spec msgW 100).2
     { name := "ans", atype := 2, aclass := 3, ttl := 60, rdata := [] } (by decide)⟩

/-- C6: the claimed receive transitions do not happen in the code.  With
a request in state `Forwarded` and response data available on the
upstream socket, the compiled `ready` and `receive` (tcp.rs:46-58,
85-107, bodies commented out) leave the request exactly unchanged —
still `Forwarded`, nothing buffered, deadline still armed — where the
claim requires buffering the bytes, cancelling the deadline and moving
to `ResponseReceived`. -/
theorem forwarded_receive_is_noop :
    reqW.state = RequestState.Forwarded ∧
    ready reqW (RecvResult.Data [1, 2]) = reqW ∧
    receive reqW (RecvResult.Data [1, 2]) = reqW ∧
    ¬ ((ready reqW (RecvResult.Data [1, 2])).state =
        RequestState.ResponseReceived) ∧
    (ready reqW (RecvResult.Data [1, 2])).responseBuf = none ∧
    (ready reqW (RecvResult.Data [1, 2])).timeoutArmed = true := by
  decide

end KoalaDns
